import Mathlib

/-!
Verification of the gogeo GeoJSON-to-GeoParquet conversion core
(`pkg/gogeo/core.go`, `pkg/gogeo/schema.go`, `pkg/gogeo/structs.go`).

The Go code is shallowly embedded: the dynamic value space of a GeoJSON
property (`interface{}` as the code's type switches discriminate it) is the
inductive `Value`; property maps are association lists; Go maps used only
for keyed lookup are embedded as functions `String → Option _`; the
`propertyNames` set, which the code iterates and then sorts, is a
duplicate-free accumulation list.  Numeric payloads are unbounded `Int`/`ℚ`:
the code only passes them through and converts between them (conversions
that cannot overflow on the JSON-decoded inputs the library produces), so
no `% 2^w` reduction arises.  Floating-point payloads are modelled as the
rationals they denote (every finite float64 is a rational; the code never
does float arithmetic, only classification and truncation).

External collaborators (the orb WKB encoder, `encoding/json.Marshal`,
`reflect.StructOf`, the parser and the parquet writer) are parameters or
small abstract models, per the spec's §6 contract list.
-/

namespace GoGeo

/-- A GeoJSON property value: the Go `interface{}` value space as the
type switches in `inferPropertyType` (schema.go) and `buildRecord`
(core.go) discriminate it.  Payloads of `vmap`/`vseq` are carried because
the string slot of `buildRecord` serializes them via the external JSON
marshaller; `other` stands for any dynamic value of a kind none of the
listed branches match (the reflection default case). -/
inductive Value where
  | null
  | bool (b : Bool)
  | int (n : Int)
  | int8 (n : Int)
  | int16 (n : Int)
  | int32 (n : Int)
  | int64 (n : Int)
  | uint (n : Nat)
  | uint8 (n : Nat)
  | uint16 (n : Nat)
  | uint32 (n : Nat)
  | uint64 (n : Nat)
  | float32 (q : ℚ)
  | float64 (q : ℚ)
  | str (s : String)
  | vmap (entries : List (String × Value))
  | vseq (items : List Value)
  | other

/-- `PropertyType` from schema.go (`iota` constants). -/
inductive PropertyType where
  | unknown
  | string
  | int
  | float
  | bool
  | null
  deriving DecidableEq

/-- `inferPropertyType` (schema.go lines 20-57).  The Go function first
switches on the concrete dynamic type and then falls back to a
`reflect.Kind` switch; both layers classify the same kinds to the same
results, so the embedding is a single match with the same case → result
map (maps, slices and arrays reach the reflection branch and yield
`PropertyTypeString`; anything else defaults to `PropertyTypeString`). -/
def inferPropertyType : Value → PropertyType
  | .null => .null
  | .bool _ => .bool
  | .int _ => .int
  | .int8 _ => .int
  | .int16 _ => .int
  | .int32 _ => .int
  | .int64 _ => .int
  | .uint _ => .int
  | .uint8 _ => .int
  | .uint16 _ => .int
  | .uint32 _ => .int
  | .uint64 _ => .int
  | .float32 _ => .float
  | .float64 _ => .float
  | .str _ => .string
  | .vmap _ => .string
  | .vseq _ => .string
  | .other => .string

/-- A geometry value, abstract except for its GeoJSON type tag
(`Geometry.GeoJSONType()` in orb): the core reads nothing else from it
besides handing it to the external WKB encoder. -/
structure Geometry where
  typ : String
  deriving DecidableEq

/-- A `geojson.Feature` as the core reads it: an optional geometry and an
optional property map (`map[string]interface{}`, embedded as an
association list whose iteration order stands for the map's
nondeterministic iteration order). -/
structure Feature where
  geometry : Option Geometry
  properties : Option (List (String × Value))

/-- A `geojson.FeatureCollection`. -/
structure FeatureCollection where
  features : List Feature

/-- `AppError` (pkg/gogeo/error.go): the single user-facing error type, a
short message plus an optional underlying cause (modelled by the cause's
message text). -/
structure AppError where
  Message : String
  Value : Option String
  deriving DecidableEq

/-- `Generate` (core.go lines 25-42), with its two external effects as
parameters: `parsed` is the outcome of `readGeoJSON` and `writeGeo` the
outcome of `writeGeoParquet` (which performs the property analysis, the
metadata building and the writing).  The zero-feature check sits between
them exactly as in the source. -/
def Generate (parsed : Except String FeatureCollection)
    (writeGeo : FeatureCollection → Except String Unit) :
    Except AppError FeatureCollection :=
  match parsed with
  | .error e => .error ⟨"failed to read GeoJSON file", some e⟩
  | .ok fc =>
    if fc.features.length = 0 then
      .error ⟨"no features found in GeoJSON file", none⟩
    else
      match writeGeo fc with
      | .error e => .error ⟨"failed to write GeoParquet file", some e⟩
      | .ok _ => .ok fc

/-- `PropertyInfo` (core.go lines 60-64): one column descriptor. -/
structure PropertyInfo where
  name : String
  typ : PropertyType
  nullable : Bool
  deriving DecidableEq

/-- Record a key into the accumulated `propertyNames` key set.  The Go set
is a `map[string]bool`; only its key set matters (the code iterates it and
then sorts), so it is embedded as a duplicate-free list in insertion
order, one representative of the map's arbitrary iteration orders — the
sort below cancels the choice. -/
def insertIfAbsent (l : List String) (k : String) : List String :=
  if k ∈ l then l else l ++ [k]

/-- Point update of the `propertyTypes` map (the code only ever reads it
back by key, never iterates it, so a function embeds it exactly). -/
def updateType (m : String → Option PropertyType) (k : String) (t : PropertyType) :
    String → Option PropertyType :=
  fun s => if s = k then some t else m s

/-- The two accumulators of `analyzeProperties` (core.go lines 285-286). -/
structure AState where
  names : List String
  types : String → Option PropertyType

/-- One iteration of the inner loop of `analyzeProperties` (core.go lines
293-309): record the key, infer the value's type, and resolve a conflict
with the recorded type by the promote-to-string policy. -/
def processEntry (st : AState) (kv : String × Value) : AState :=
  let inferredType := inferPropertyType kv.2
  let names := insertIfAbsent st.names kv.1
  let types :=
    match st.types kv.1 with
    | some existingType =>
      if existingType ≠ inferredType ∧ inferredType ≠ .null then
        if existingType ≠ .null then updateType st.types kv.1 .string
        else updateType st.types kv.1 inferredType
      else st.types
    | none => updateType st.types kv.1 inferredType
  ⟨names, types⟩

/-- One iteration of the outer loop of `analyzeProperties` (core.go lines
288-310): a feature with a nil property map is skipped. -/
def processFeature (st : AState) (f : Feature) : AState :=
  match f.properties with
  | none => st
  | some props => props.foldl processEntry st

def initState : AState := ⟨[], fun _ => none⟩

/-- The runes of a Go string (valid UTF-8): exactly its codepoints. -/
def strRunes (s : String) : List Nat := s.data.map Char.toNat

/-- Lexicographic comparison of rune lists.  On valid UTF-8 this
codepoint order coincides with the byte-wise order Go's `sort.Strings`
compares by, since UTF-8 encoding is order-preserving. -/
def runeLe : List Nat → List Nat → Bool
  | [], _ => true
  | _ :: _, [] => false
  | a :: as, b :: bs =>
    if a < b then true else if b < a then false else runeLe as bs

/-- The byte-wise lexicographic string order of `sort.Strings`, as a
proposition on the strings' rune lists. -/
abbrev strLe (a b : String) : Prop := runeLe (strRunes a) (strRunes b) = true

instance : IsTotal String strLe where
  total a b := by
    have h : ∀ as bs : List Nat, runeLe as bs = true ∨ runeLe bs as = true := by
      intro as
      induction as with
      | nil => intro bs; left; rfl
      | cons x xs ih =>
        intro bs
        cases bs with
        | nil => right; rfl
        | cons y ys =>
          by_cases hxy : x < y
          · left
            simp [runeLe, hxy]
          · by_cases hyx : y < x
            · right
              simp [runeLe, hyx]
            · have hxyeq : x = y := by omega
              subst hxyeq
              rcases ih ys with h | h
              · left
                simpa [runeLe, Nat.lt_irrefl] using h
              · right
                simpa [runeLe, Nat.lt_irrefl] using h
    exact h (strRunes a) (strRunes b)

instance : IsTrans String strLe where
  trans a b c hab hbc := by
    have h : ∀ as bs cs : List Nat,
        runeLe as bs = true → runeLe bs cs = true → runeLe as cs = true := by
      intro as
      induction as with
      | nil => intro bs cs _ _; rfl
      | cons x xs ih =>
        intro bs cs hab2 hbc2
        cases bs with
        | nil => simp [runeLe] at hab2
        | cons y ys =>
          cases cs with
          | nil => simp [runeLe] at hbc2
          | cons z zs =>
            by_cases hxy : x < y
            · by_cases hyz : y < z
              · have hxz : x < z := by omega
                simp [runeLe, hxz]
              · by_cases hzy : z < y
                · simp [runeLe, hyz, hzy] at hbc2
                · have hyzeq : y = z := by omega
                  subst hyzeq
                  simp [runeLe, hxy]
            · by_cases hyx : y < x
              · simp [runeLe, hxy, hyx] at hab2
              · have hxyeq : x = y := by omega
                subst hxyeq
                simp only [runeLe, Nat.lt_irrefl, if_false] at hab2
                by_cases hyz : x < z
                · simp [runeLe, hyz]
                · by_cases hzy : z < x
                  · simp [runeLe, hyz, hzy] at hbc2
                  · have hxzeq : x = z := by omega
                    subst hxzeq
                    simp only [runeLe, Nat.lt_irrefl, if_false] at hbc2 ⊢
                    exact ih ys zs hab2 hbc2
    exact h (strRunes a) (strRunes b) (strRunes c) hab hbc

instance : IsAntisymm String strLe where
  antisymm a b hab hba := by
    have h : ∀ as bs : List Nat,
        runeLe as bs = true → runeLe bs as = true → as = bs := by
      intro as
      induction as with
      | nil =>
        intro bs h1 h2
        cases bs with
        | nil => rfl
        | cons y ys => simp [runeLe] at h2
      | cons x xs ih =>
        intro bs h1 h2
        cases bs with
        | nil => simp [runeLe] at h1
        | cons y ys =>
          by_cases hxy : x < y
          · simp [runeLe, hxy, Nat.lt_asymm hxy] at h2
          · by_cases hyx : y < x
            · simp [runeLe, hxy, hyx] at h1
            · have hxyeq : x = y := by omega
              subst hxyeq
              simp only [runeLe, Nat.lt_irrefl, if_false] at h1 h2
              rw [ih ys h1 h2]
    have hr := h (strRunes a) (strRunes b) hab hba
    have hinj : Function.Injective Char.toNat := by
      intro c d hcd
      exact Char.eq_of_val_eq (UInt32.toNat.inj hcd)
    exact String.ext (List.map_injective_iff.mpr hinj hr)

/-- `analyzeProperties` (core.go lines 284-333): run both loops, sort the
observed keys (Go `sort.Strings`, ascending byte-wise lexicographic;
`insertionSort` over the total order `strLe` yields the same list as any
sort), and emit one nullable descriptor per key, defaulting a
still-`Null` type to string.  A name missing from `propertyTypes` would
read the Go zero value `PropertyTypeUnknown`, hence `getD .unknown`. -/
def analyzeProperties (fc : FeatureCollection) : List PropertyInfo :=
  let st := fc.features.foldl processFeature initState
  let names := List.insertionSort strLe st.names
  names.map fun name =>
    let propType := (st.types name).getD .unknown
    { name := name
      typ := if propType = .null then .string else propType
      nullable := true }

/-- The keys of one feature's property map, in the map's modelled order. -/
def keysOf (f : Feature) : List String :=
  (f.properties.getD []).map Prod.fst

/-- All keys observed across a feature list, with repetition. -/
def allKeys (fs : List Feature) : List String :=
  fs.flatMap keysOf

/-- First-match association lookup: the read `ps[k]` of the Go map, valid
because a Go map holds each key once (the `NodupKeys` hypotheses below). -/
def alookup (k : String) : List (String × Value) → Option Value
  | [] => none
  | (k2, v) :: rest => if k2 = k then some v else alookup k rest

/-- `feature.Properties[propInfo.Name]` with the nil-map guard
(core.go lines 197-200): `none` for a nil map or an absent key. -/
def rawProp (f : Feature) (name : String) : Option Value :=
  match f.properties with
  | none => none
  | some props => alookup name props

/-- The values observed for key `k`, one per feature that carries it, in
feature order. -/
def obsVals (fs : List Feature) (k : String) : List Value :=
  fs.filterMap fun f => rawProp f k

/-- The semantic types observed for key `k`, in observation order. -/
def obsTypes (fs : List Feature) (k : String) : List PropertyType :=
  (obsVals fs k).map inferPropertyType

/-- The conflict-resolution step of `analyzeProperties` on a recorded type
and a newly observed one (the body of core.go lines 297-305). -/
def combine (existingType t : PropertyType) : PropertyType :=
  if existingType ≠ t ∧ t ≠ .null then
    (if existingType ≠ .null then .string else t)
  else existingType

/-- `combine` lifted to the map entry (`none` = key not yet recorded). -/
def combineOpt (o : Option PropertyType) (t : PropertyType) : Option PropertyType :=
  match o with
  | none => some t
  | some e => some (combine e t)

/-- Closed form of the analyzer's per-key fold before the final
null-to-string default: `null` when no non-null type was observed, the
type itself when exactly one distinct non-null type was observed, and
`string` as soon as two distinct non-null types were observed. -/
def condense (ts : List PropertyType) : PropertyType :=
  match ts.filter (fun t => t ≠ .null) with
  | [] => .null
  | t :: rest => if rest.all (fun u => u = t) then t else .string

/-- The final inferred type for an observation sequence, as §4.2/§8 of the
spec describe it: the unique non-null observed type, `string` on a
conflict, and `string` when only nulls were observed. -/
def specType (ts : List PropertyType) : PropertyType :=
  match ts.filter (fun t => t ≠ .null) with
  | [] => .string
  | t :: rest => if rest.all (fun u => u = t) then t else .string

/-- Every feature's property map holds each key at most once — true of
every Go map, made explicit for the association-list embedding. -/
def NodupProps (fc : FeatureCollection) : Prop :=
  ∀ f ∈ fc.features, ((f.properties.getD []).map Prod.fst).Nodup

/-- Two presentations of the same collection: featurewise, the same
geometry and the same property map, the association lists differing only
in iteration order. -/
def FeatureEquiv (f f2 : Feature) : Prop :=
  f.geometry = f2.geometry ∧
    match f.properties, f2.properties with
    | none, none => True
    | some ps, some ps2 => ps.Perm ps2
    | _, _ => False

/-- A conflicting collection: key "a" is observed as Integer then String. -/
def fcConflict : FeatureCollection :=
  ⟨[⟨none, some [("a", .int 1)]⟩, ⟨none, some [("a", .str "x")]⟩]⟩

/-- A one-feature collection whose property map is listed b-then-a. -/
def fcOrderBA : FeatureCollection :=
  ⟨[⟨none, some [("b", .int 1), ("a", .str "x")]⟩]⟩

/-- The same collection with the property map iterated a-then-b. -/
def fcOrderAB : FeatureCollection :=
  ⟨[⟨none, some [("a", .str "x"), ("b", .int 1)]⟩]⟩

/-- A typed column value, as held by one optional pointer field of the
dynamic record struct. -/
inductive PValue where
  | int (n : Int)
  | float (q : ℚ)
  | bool (b : Bool)
  | str (s : String)
  deriving DecidableEq

/-- Go's `int64(f)` conversion for a finite float64 value `q`: truncation
toward zero, which on the exact rational value is T-division of numerator
by denominator. -/
def truncToInt (q : ℚ) : Int := Int.tdiv q.num (q.den : Int)

/-- `toInt64` (core.go lines 249-264): note the accepted case list is
exactly `int`, `int32`, `int64`, `float64`, `float32` — no `int8`,
`int16` and no unsigned kinds. -/
def toInt64 : Value → Option Int
  | .int n => some n
  | .int32 n => some n
  | .int64 n => some n
  | .float64 q => some (truncToInt q)
  | .float32 q => some (truncToInt q)
  | _ => none

/-- `toFloat64` (core.go lines 266-281): `float32`, `float64`, `int`,
`int32`, `int64` widen; everything else fails. -/
def toFloat64 : Value → Option ℚ
  | .float32 q => some q
  | .float64 q => some q
  | .int n => some (n : ℚ)
  | .int32 n => some (n : ℚ)
  | .int64 n => some (n : ℚ)
  | _ => none

/-- The per-slot body of `buildRecord`'s property loop (core.go lines
197-242) on the fetched raw value: a missing value or interface nil
leaves the field nil; otherwise the switch on the descriptor type
coerces, leaving nil on a failed coercion.  `marshal` is the external
`encoding/json.Marshal` (`none` = marshal error, which the code ignores,
leaving the empty string); for the string slot the code drops an empty
result string, leaving the field nil. -/
def coerceValue (marshal : Value → Option String) (typ : PropertyType)
    (value : Option Value) : Option PValue :=
  match value with
  | none => none
  | some Value.null => none
  | some v =>
    match typ with
    | .int => (toInt64 v).map PValue.int
    | .float => (toFloat64 v).map PValue.float
    | .bool =>
      match v with
      | .bool b => some (PValue.bool b)
      | _ => none
    | _ =>
      let strValue :=
        match v with
        | .str s => s
        | _ => (marshal v).getD ""
      if strValue = "" then none else some (PValue.str strValue)

/-- The dynamic record value `buildRecord` returns: the geometry byte
slice (field 0, a non-optional `[]byte`) and the optional property
fields in descriptor order. -/
structure Record where
  geometry : List Nat
  values : List (Option PValue)
  deriving DecidableEq

/-- `buildRecord` (core.go lines 176-246).  `encode` is the external
`wkb.Marshal` (`none` = encoding error).  The record starts as the zero
value of the dynamic struct (all property pointers nil, embedded as
`replicate n none`) and the loop sets field `i+1` from descriptor `i`;
on a failed geometry encoding — or a nil geometry — the geometry field
holds the empty byte slice. -/
def buildRecord (encode : Geometry → Option (List Nat)) (marshal : Value → Option String)
    (feature : Feature) (propertyInfos : List PropertyInfo) : Record :=
  let wkbBytes : List Nat :=
    match feature.geometry with
    | some g =>
      match encode g with
      | some bs => bs
      | none => []
    | none => []
  let values :=
    (propertyInfos.enum).foldl
      (fun acc ip => acc.set ip.1 (coerceValue marshal ip.2.typ (rawProp feature ip.2.name)))
      (List.replicate propertyInfos.length none)
  ⟨wkbBytes, values⟩

/-- The row loop of `writeGeoParquet` (core.go lines 99-105): one record
per feature, in feature order (the external writer is out of scope). -/
def convertRows (encode : Geometry → Option (List Nat)) (marshal : Value → Option String)
    (fc : FeatureCollection) (propertyInfos : List PropertyInfo) : List Record :=
  fc.features.map fun f => buildRecord encode marshal f propertyInfos

/-- The `repetition=...` part of a field's parquet tag. -/
inductive Repetition where
  | required
  | optional
  deriving DecidableEq

/-- The Go field type chosen by `buildDynamicType`'s switch. -/
inductive FieldType where
  | byteArray
  | optInt64
  | optFloat64
  | optBool
  | optString
  deriving DecidableEq

/-- `runes[0] & ^('a'-'A')` (core.go line 160): bitwise AND of the first
rune (an `int32`) with the complement of 0x20, i.e. with 0xFFFFFFDF. -/
def maskUpper (r : Nat) : Nat := r &&& 4294967263

/-- The character filter of `exportFieldName` (core.go line 166).  Go
ranges over the string with `i` the byte offset of the rune; a rune's
byte offset is positive exactly when its rune position is, so the rune
position is used here. -/
def validRune (i r : Nat) : Bool :=
  decide ((65 ≤ r ∧ r ≤ 90) ∨ (97 ≤ r ∧ r ≤ 122) ∨ (48 ≤ r ∧ r ≤ 57 ∧ 0 < i) ∨ r = 95)

/-- `exportFieldName` (core.go lines 154-173) on the rune list of a
property name.  The Go code rebuilds a string from the masked runes
before filtering; a masked first rune that is no longer a valid
codepoint would be replaced by U+FFFD in that round trip, but every such
rune (≥ 0xD800) and U+FFFD itself fail the filter, so the underscore
output is unchanged by modelling the runes directly. -/
def exportFieldName (name : List Nat) : List Nat :=
  match name with
  | [] => strRunes "Field"
  | r0 :: rest =>
    ((maskUpper r0 :: rest).enum).map (fun ir => if validRune ir.1 ir.2 then ir.2 else 95)

/-- The claim's description of the mangling: empty name becomes "Field",
the first letter is uppercased (lowercase ASCII only), and every
character outside A-Z, a-z, 0-9 and underscore — and a digit in leading
position — is replaced by an underscore. -/
def exportFieldNameSpec (name : List Nat) : List Nat :=
  match name with
  | [] => strRunes "Field"
  | r0 :: rest =>
    (((if 97 ≤ r0 ∧ r0 ≤ 122 then r0 - 32 else r0) :: rest).enum).map
      (fun ir => if validRune ir.1 ir.2 then ir.2 else 95)

/-- One `reflect.StructField` of the dynamic struct, kept to the parts
the claims concern: mangled name, field type, and the tag's repetition. -/
structure StructField where
  fname : List Nat
  ftype : FieldType
  repetition : Repetition
  deriving DecidableEq

/-- The geometry field (core.go lines 115-119): name "Geometry", type
`[]byte`, tag `repetition=REQUIRED`. -/
def geometryField : StructField := ⟨strRunes "Geometry", .byteArray, .required⟩

/-- One property field (core.go lines 122-148): pointer type per the
descriptor's inferred type (string for the default branch), tag
`repetition=OPTIONAL`, name mangled by `exportFieldName`. -/
def propField (p : PropertyInfo) : StructField :=
  match p.typ with
  | .int => ⟨exportFieldName (strRunes p.name), .optInt64, .optional⟩
  | .float => ⟨exportFieldName (strRunes p.name), .optFloat64, .optional⟩
  | .bool => ⟨exportFieldName (strRunes p.name), .optBool, .optional⟩
  | _ => ⟨exportFieldName (strRunes p.name), .optString, .optional⟩

/-- Go's exported-identifier test as `reflect.StructOf` applies it to a
field name (`unicode.IsUpper` on the first rune).  Every name this
model hands to `structOf` is "Geometry" or an `exportFieldName` output,
whose first rune is an ASCII uppercase letter or an underscore, so the
ASCII check is exact on that domain; an underscore-leading name — e.g.
the mangling of a key that starts with a digit — is unexported. -/
def isExportedName (name : List Nat) : Bool :=
  match name with
  | [] => false
  | r :: _ => decide (65 ≤ r ∧ r ≤ 90)

/-- The external `reflect.StructOf`: it panics when a field's name is
unexported (an unexported field without PkgPath) or when two fields
carry the same name, and otherwise yields the struct with the given
fields; both panics are embedded as `none`. -/
def structOf (fields : List StructField) : Option (List StructField) :=
  if fields.all (fun f => isExportedName f.fname) = true ∧
      (fields.map StructField.fname).Nodup then
    some fields
  else none

/-- `buildDynamicType` (core.go lines 111-151): the geometry field
followed by one field per descriptor, handed to `reflect.StructOf`. -/
def buildDynamicType (propertyInfos : List PropertyInfo) : Option (List StructField) :=
  structOf (geometryField :: propertyInfos.map propField)

def GeoParquetVersion : String := "1.1.0"

def DefaultGeometryColumn : String := "geometry"

def DefaultGeometryEncoding : String := "WKB"

/-- `GeoParquetColumn` (structs.go): geometry column metadata. -/
structure GeoParquetColumn where
  Encoding : String
  GeometryTypes : List String
  CRS : Option String
  deriving DecidableEq

/-- `GeoParquet` (structs.go): the embedded metadata block.  The Go
`Columns` map holds a single entry, embedded as a one-entry list. -/
structure GeoParquet where
  Version : String
  PrimaryColumn : String
  Columns : List (String × GeoParquetColumn)
  deriving DecidableEq

/-- The geometry-type set accumulated by `createGeoParquetMetadata`
(core.go lines 338-354), as a duplicate-free list in insertion order
(the map's iteration order is cancelled by the sort, as for keys). -/
def geomTypesAcc (fc : FeatureCollection) : List String :=
  fc.features.foldl
    (fun acc f =>
      match f.geometry with
      | some g => insertIfAbsent acc g.typ
      | none => acc) []

/-- `createGeoParquetMetadata` (core.go lines 336-382).  The function
also accumulates a bounding box but never stores it in the returned
metadata, so the embedding omits it; `propertyInfos` is likewise unused
by the source beyond its signature. -/
def createGeoParquetMetadata (fc : FeatureCollection)
    (propertyInfos : List PropertyInfo) : GeoParquet :=
  let typesList := List.insertionSort strLe (geomTypesAcc fc)
  { Version := GeoParquetVersion
    PrimaryColumn := DefaultGeometryColumn
    Columns := [(DefaultGeometryColumn,
      { Encoding := DefaultGeometryEncoding
        GeometryTypes := typesList
        CRS := none })] }

/-- A WKB encoder that fails on every geometry. -/
def encodeNone : Geometry → Option (List Nat) := fun _ => none

/-- A JSON marshaller that fails on every value. -/
def marshalNone : Value → Option String := fun _ => none

/-- One feature carrying a Point geometry and no properties. -/
def fcPointOnly : FeatureCollection := ⟨[⟨some ⟨"Point"⟩, none⟩]⟩

/-- A feature with no geometry and no properties. -/
def featureNoGeom : Feature := ⟨none, none⟩

/-- A Point feature and a Polygon feature. -/
def fcPointPolygon : FeatureCollection :=
  ⟨[⟨some ⟨"Point"⟩, none⟩, ⟨some ⟨"Polygon"⟩, none⟩]⟩

/-- A descriptor whose key mangles to the geometry field's name. -/
def infoGeometry : PropertyInfo := ⟨"geometry", .string, true⟩

/-- A descriptor whose key starts with a digit: it mangles to the
underscore-leading, unexported field name "_020_pop". -/
def infoDigit : PropertyInfo := ⟨"2020_pop", .string, true⟩

/-- A descriptor with key "name". -/
def infoLowerName : PropertyInfo := ⟨"name", .string, true⟩

/-- A descriptor with key "Name", mangling to the same field name. -/
def infoUpperName : PropertyInfo := ⟨"Name", .string, true⟩

theorem mem_insertIfAbsent {l : List String} {k x : String} :
    x ∈ insertIfAbsent l k ↔ x ∈ l ∨ x = k := by
  unfold insertIfAbsent
  by_cases h : k ∈ l
  · simp only [if_pos h]
    constructor
    · exact fun hx => Or.inl hx
    · rintro (hx | rfl)
      · exact hx
      · exact h
  · simp [if_neg h]

theorem nodup_insertIfAbsent {l : List String} {k : String} (h : l.Nodup) :
    (insertIfAbsent l k).Nodup := by
  unfold insertIfAbsent
  by_cases hk : k ∈ l
  · simpa [if_pos hk] using h
  · rw [if_neg hk, List.nodup_append]
    refine ⟨h, List.nodup_singleton k, fun a ha hb => ?_⟩
    rw [List.mem_singleton] at hb
    subst hb
    exact hk ha

theorem mem_foldl_insertIfAbsent (ks : List String) :
    ∀ (l : List String) (x : String),
      x ∈ ks.foldl insertIfAbsent l ↔ x ∈ l ∨ x ∈ ks := by
  induction ks with
  | nil => simp
  | cons k ks ih =>
    intro l x
    rw [List.foldl_cons, ih, mem_insertIfAbsent]
    simp [or_assoc]

theorem nodup_foldl_insertIfAbsent (ks : List String) :
    ∀ (l : List String), l.Nodup → (ks.foldl insertIfAbsent l).Nodup := by
  induction ks with
  | nil => exact fun l h => h
  | cons k ks ih => exact fun l h => ih _ (nodup_insertIfAbsent h)

theorem processEntry_names (st : AState) (kv : String × Value) :
    (processEntry st kv).names = insertIfAbsent st.names kv.1 := rfl

theorem processEntry_types_self (st : AState) (kv : String × Value) :
    (processEntry st kv).types kv.1 = combineOpt (st.types kv.1) (inferPropertyType kv.2) := by
  unfold processEntry combineOpt combine
  cases h : st.types kv.1 with
  | none => simp [h, updateType]
  | some e =>
    simp only [h]
    split_ifs <;> simp_all [updateType]

theorem processEntry_types_other (st : AState) (kv : String × Value) (k : String)
    (h : k ≠ kv.1) : (processEntry st kv).types k = st.types k := by
  cases hst : st.types kv.1 with
  | none => simp [processEntry, hst, updateType, h]
  | some e =>
    simp only [processEntry, hst]
    split_ifs <;> simp [updateType, h]

theorem foldl_entries_names (ps : List (String × Value)) :
    ∀ st : AState,
      (ps.foldl processEntry st).names = (ps.map Prod.fst).foldl insertIfAbsent st.names := by
  induction ps with
  | nil => intro st; rfl
  | cons kv rest ih =>
    intro st
    rw [List.foldl_cons, ih, List.map_cons, List.foldl_cons, processEntry_names]

theorem foldl_entries_types_notmem (ps : List (String × Value)) :
    ∀ (st : AState) (k : String), k ∉ ps.map Prod.fst →
      (ps.foldl processEntry st).types k = st.types k := by
  induction ps with
  | nil => intro st k _; rfl
  | cons kv rest ih =>
    intro st k hk
    rw [List.map_cons, List.mem_cons] at hk
    push_neg at hk
    rw [List.foldl_cons, ih _ _ hk.2, processEntry_types_other _ _ _ hk.1]

theorem alookup_eq_none {k : String} {ps : List (String × Value)} :
    alookup k ps = none ↔ k ∉ ps.map Prod.fst := by
  induction ps with
  | nil => simp [alookup]
  | cons kv rest ih =>
    obtain ⟨k2, v⟩ := kv
    by_cases h : k2 = k
    · subst h
      simp [alookup]
    · simp only [alookup, if_neg h, ih, List.map_cons, List.mem_cons]
      constructor
      · rintro hk (rfl | hm)
        · exact h rfl
        · exact hk hm
      · intro hk hm
        exact hk (Or.inr hm)

theorem foldl_entries_types (ps : List (String × Value)) :
    ∀ (st : AState) (k : String), (ps.map Prod.fst).Nodup →
      (ps.foldl processEntry st).types k =
        (alookup k ps).elim (st.types k)
          (fun v => combineOpt (st.types k) (inferPropertyType v)) := by
  induction ps with
  | nil => intro st k _; rfl
  | cons kv rest ih =>
    intro st k hnd
    obtain ⟨k2, v⟩ := kv
    rw [List.map_cons, List.nodup_cons] at hnd
    by_cases h : k2 = k
    · subst h
      have hrest : k2 ∉ rest.map Prod.fst := hnd.1
      rw [List.foldl_cons, foldl_entries_types_notmem rest _ _ hrest]
      have hself := processEntry_types_self st (k2, v)
      simp only [alookup, if_pos rfl, Option.elim]
      exact hself
    · rw [List.foldl_cons, ih _ _ hnd.2, processEntry_types_other _ _ _ (fun hk => h hk.symm)]
      simp [alookup, if_neg h]

theorem processFeature_names (st : AState) (f : Feature) :
    (processFeature st f).names = (keysOf f).foldl insertIfAbsent st.names := by
  unfold processFeature keysOf
  cases f.properties with
  | none => rfl
  | some ps => exact foldl_entries_names ps st

theorem processFeature_types (st : AState) (f : Feature) (k : String)
    (hnd : ((f.properties.getD []).map Prod.fst).Nodup) :
    (processFeature st f).types k =
      (rawProp f k).elim (st.types k)
        (fun v => combineOpt (st.types k) (inferPropertyType v)) := by
  unfold processFeature rawProp
  cases hp : f.properties with
  | none => rfl
  | some ps =>
    rw [hp] at hnd
    exact foldl_entries_types ps st k (by simpa using hnd)

theorem run_names (fs : List Feature) :
    ∀ st : AState,
      (fs.foldl processFeature st).names = (allKeys fs).foldl insertIfAbsent st.names := by
  induction fs with
  | nil => intro st; rfl
  | cons f fs ih =>
    intro st
    rw [List.foldl_cons, ih]
    simp only [allKeys, List.flatMap_cons, List.foldl_append]
    rw [processFeature_names]

theorem run_types (fs : List Feature)
    (hnd : ∀ f ∈ fs, ((f.properties.getD []).map Prod.fst).Nodup) :
    ∀ (st : AState) (k : String),
      (fs.foldl processFeature st).types k = (obsTypes fs k).foldl combineOpt (st.types k) := by
  induction fs with
  | nil => intro st k; rfl
  | cons f fs ih =>
    intro st k
    have hndf := hnd f (List.mem_cons_self f fs)
    have hndr : ∀ g ∈ fs, ((g.properties.getD []).map Prod.fst).Nodup :=
      fun g hg => hnd g (List.mem_cons_of_mem f hg)
    rw [List.foldl_cons, ih hndr]
    have h1 := processFeature_types st f k hndf
    cases hr : rawProp f k with
    | none =>
      rw [hr] at h1
      simp only [Option.elim] at h1
      simp only [obsTypes, obsVals, List.filterMap_cons, hr, h1]
    | some v =>
      rw [hr] at h1
      simp only [Option.elim] at h1
      simp only [obsTypes, obsVals, List.filterMap_cons, hr, h1, List.map_cons,
        List.foldl_cons]

theorem foldl_combineOpt_some (ts : List PropertyType) :
    ∀ x : PropertyType, ts.foldl combineOpt (some x) = some (ts.foldl combine x) := by
  induction ts with
  | nil => intro x; rfl
  | cons t ts ih =>
    intro x
    rw [List.foldl_cons, List.foldl_cons]
    exact ih (combine x t)

theorem combine_condense (l : List PropertyType) (u : PropertyType) :
    combine (condense l) u = condense (l ++ [u]) := by
  by_cases hu : u = PropertyType.null
  · subst hu
    have hf : (l ++ [PropertyType.null]).filter (fun t => t ≠ PropertyType.null) =
        l.filter (fun t => t ≠ PropertyType.null) := by
      rw [List.filter_append]
      simp
    unfold condense
    rw [hf]
    cases l.filter (fun t => t ≠ PropertyType.null) with
    | nil => simp [combine]
    | cons a rest =>
      by_cases hall : rest.all (fun u => u = a) <;> simp [combine, hall]
  · have hnu : PropertyType.null ≠ u := fun h => hu h.symm
    have hf : (l ++ [u]).filter (fun t => t ≠ PropertyType.null) =
        l.filter (fun t => t ≠ PropertyType.null) ++ [u] := by
      rw [List.filter_append]
      simp [hu]
    unfold condense
    rw [hf]
    cases hfl : l.filter (fun t => t ≠ PropertyType.null) with
    | nil =>
      simp only [List.nil_append]
      simp [combine, hu, hnu]
    | cons a rest =>
      have ha : a ≠ PropertyType.null := by
        have hmem : a ∈ l.filter (fun t => t ≠ PropertyType.null) := by
          rw [hfl]; exact List.mem_cons_self a rest
        simpa using (List.mem_filter.mp hmem).2
      by_cases hall : rest.all (fun x => x = a)
      · by_cases hau : a = u
        · subst hau
          have hT : (rest ++ [a]).all (fun x => x = a) = true := by
            rw [List.all_append]
            simp [hall]
          simp [combine, hall, hT, List.cons_append]
        · have huA : ¬u = a := fun h => hau h.symm
          have hF : ¬((rest ++ [u]).all (fun x => x = a) = true) := by
            intro hc
            rw [List.all_append, Bool.and_eq_true] at hc
            have hc2 := hc.2
            simp at hc2
            exact huA hc2
          simp [combine, hall, hF, hau, hu, ha, List.cons_append]
      · have hF : ¬((rest ++ [u]).all (fun x => x = a) = true) := by
          intro hc
          rw [List.all_append, Bool.and_eq_true] at hc
          exact hall hc.1
        by_cases hsu : PropertyType.string = u
        · subst hsu
          simp [combine, hall, hF, List.cons_append]
        · simp [combine, hall, hF, List.cons_append, hsu, hu]

theorem fold_condense (ts : List PropertyType) :
    ∀ t : PropertyType, ts.foldl combine t = condense (t :: ts) := by
  induction ts using List.reverseRecOn with
  | nil =>
    intro t
    by_cases ht : t = PropertyType.null <;> simp [condense, ht]
  | append_singleton l u ih =>
    intro t
    rw [List.foldl_append, List.foldl_cons, List.foldl_nil, ih, combine_condense,
      ← List.cons_append]

theorem condense_default (ts : List PropertyType) :
    (if condense ts = PropertyType.null then PropertyType.string else condense ts) =
      specType ts := by
  unfold condense specType
  cases hf : ts.filter (fun t => t ≠ PropertyType.null) with
  | nil => rfl
  | cons a rest =>
    have ha : a ≠ PropertyType.null := by
      have hmem : a ∈ ts.filter (fun t => t ≠ PropertyType.null) := by
        rw [hf]; exact List.mem_cons_self a rest
      simpa using (List.mem_filter.mp hmem).2
    by_cases hall : rest.all (fun u => u = a) <;> simp [hall, ha]

theorem obsVals_ne_nil (fs : List Feature) (k : String) (h : k ∈ allKeys fs) :
    obsVals fs k ≠ [] := by
  rw [allKeys, List.mem_flatMap] at h
  obtain ⟨f, hf, hk⟩ := h
  have hv : ∃ v, rawProp f k = some v := by
    unfold keysOf at hk
    unfold rawProp
    cases hp : f.properties with
    | none => rw [hp] at hk; simp at hk
    | some ps =>
      rw [hp] at hk
      simp only [Option.getD_some] at hk
      cases ha : alookup k ps with
      | none => exact absurd hk (alookup_eq_none.mp ha)
      | some v => exact ⟨v, ha⟩
  obtain ⟨v, hv⟩ := hv
  have hmem : v ∈ obsVals fs k := by
    unfold obsVals
    rw [List.mem_filterMap]
    exact ⟨f, hf, hv⟩
  exact List.ne_nil_of_mem hmem

theorem namesAcc_mem (fs : List Feature) (x : String) :
    x ∈ (fs.foldl processFeature initState).names ↔ x ∈ allKeys fs := by
  rw [run_names]
  show x ∈ (allKeys fs).foldl insertIfAbsent [] ↔ _
  rw [mem_foldl_insertIfAbsent]
  simp

theorem namesAcc_nodup (fs : List Feature) :
    ((fs.foldl processFeature initState).names).Nodup := by
  rw [run_names]
  exact nodup_foldl_insertIfAbsent _ _ List.nodup_nil

/-- The per-key closed form of the whole analyzer: each descriptor's key is
an observed key, the keys come out sorted, and each descriptor's type is
`specType` of that key's observation sequence. -/
theorem analyzeProperties_spec (fc : FeatureCollection) (hnd : NodupProps fc) :
    analyzeProperties fc =
      (List.insertionSort strLe
        ((fc.features.foldl processFeature initState).names)).map
        (fun name => (⟨name, specType (obsTypes fc.features name), true⟩ : PropertyInfo)) := by
  simp only [analyzeProperties]
  apply List.map_congr_left
  intro name hmem
  have hmem2 : name ∈ (fc.features.foldl processFeature initState).names := by
    simpa using hmem
  have hak : name ∈ allKeys fc.features := (namesAcc_mem fc.features name).mp hmem2
  have hone : obsVals fc.features name ≠ [] := obsVals_ne_nil _ _ hak
  have hobs : obsTypes fc.features name ≠ [] := by
    unfold obsTypes
    simpa using hone
  obtain ⟨t, ts, hts⟩ := List.exists_cons_of_ne_nil hobs
  have htypes : (fc.features.foldl processFeature initState).types name =
      some (condense (obsTypes fc.features name)) := by
    rw [run_types fc.features hnd initState name, hts, List.foldl_cons]
    show List.foldl combineOpt (some t) ts = _
    rw [foldl_combineOpt_some, fold_condense]
  rw [htypes]
  simp only [Option.getD_some]
  rw [condense_default]

theorem specType_cons (ts : List PropertyType) (a : PropertyType) (rest : List PropertyType)
    (h : ts.filter (fun u => u ≠ PropertyType.null) = a :: rest) :
    specType ts = if rest.all (fun u => u = a) then a else PropertyType.string := by
  unfold specType
  rw [h]

theorem specType_of_conflict (ts : List PropertyType)
    (h : ∃ t1 ∈ ts.filter (fun u => u ≠ PropertyType.null),
      ∃ t2 ∈ ts.filter (fun u => u ≠ PropertyType.null), t1 ≠ t2) :
    specType ts = PropertyType.string := by
  obtain ⟨t1, h1, t2, h2, hne⟩ := h
  cases hf : ts.filter (fun u => u ≠ PropertyType.null) with
  | nil => rw [hf] at h1; simp at h1
  | cons a rest =>
    rw [hf] at h1 h2
    rw [specType_cons ts a rest hf]
    by_cases hall : rest.all (fun u => u = a)
    · exfalso
      have hmem : ∀ u ∈ a :: rest, u = a := by
        intro u hu
        rcases List.mem_cons.mp hu with rfl | hu2
        · rfl
        · simpa using (List.all_eq_true.mp hall) u hu2
      exact hne ((hmem t1 h1).trans (hmem t2 h2).symm)
    · rw [if_neg hall]

theorem specType_of_nil (ts : List PropertyType)
    (h : ts.filter (fun u => u ≠ PropertyType.null) = []) :
    specType ts = PropertyType.string := by
  unfold specType
  rw [h]

theorem specType_of_unique (ts : List PropertyType) (t : PropertyType)
    (ht : t ∈ ts.filter (fun u => u ≠ PropertyType.null))
    (huniq : ∀ u ∈ ts.filter (fun u => u ≠ PropertyType.null), u = t) :
    specType ts = t := by
  cases hf : ts.filter (fun u => u ≠ PropertyType.null) with
  | nil => rw [hf] at ht; simp at ht
  | cons a rest =>
    rw [hf] at huniq
    rw [specType_cons ts a rest hf]
    have haT : a = t := huniq a (List.mem_cons_self a rest)
    have hall : rest.all (fun u => u = a) = true := by
      rw [List.all_eq_true]
      intro u hu
      simp only [decide_eq_true_eq]
      rw [huniq u (List.mem_cons_of_mem a hu), haT]
    rw [if_pos hall]
    exact haT

theorem forall2_mem_right {R : Feature → Feature → Prop} :
    ∀ {l l2 : List Feature}, List.Forall₂ R l l2 → ∀ b ∈ l2, ∃ a ∈ l, R a b := by
  intro l l2 h
  induction h with
  | nil => intro b hb; simp at hb
  | cons hx hrest ih =>
    intro b hb
    rcases List.mem_cons.mp hb with rfl | hb2
    · exact ⟨_, List.mem_cons_self _ _, hx⟩
    · obtain ⟨a, ha, hr⟩ := ih b hb2
      exact ⟨a, List.mem_cons_of_mem _ ha, hr⟩

theorem keysOf_perm {f f2 : Feature} (h : FeatureEquiv f f2) :
    (keysOf f).Perm (keysOf f2) := by
  obtain ⟨-, hp⟩ := h
  unfold keysOf
  cases hf : f.properties with
  | none =>
    cases hf2 : f2.properties with
    | none => simp
    | some ps2 => rw [hf, hf2] at hp; exact hp.elim
  | some ps =>
    cases hf2 : f2.properties with
    | none => rw [hf, hf2] at hp; exact hp.elim
    | some ps2 =>
      rw [hf, hf2] at hp
      have hp2 : ps.Perm ps2 := hp
      simpa using hp2.map Prod.fst

theorem allKeys_perm {fs fs2 : List Feature} (h : List.Forall₂ FeatureEquiv fs fs2) :
    (allKeys fs).Perm (allKeys fs2) := by
  induction h with
  | nil => simp [allKeys]
  | cons hx hrest ih =>
    simp only [allKeys, List.flatMap_cons]
    exact (keysOf_perm hx).append ih

theorem alookup_perm {k : String} :
    ∀ {ps ps2 : List (String × Value)}, ps.Perm ps2 →
      (ps.map Prod.fst).Nodup → alookup k ps2 = alookup k ps := by
  intro ps ps2 h
  induction h with
  | nil => intro _; rfl
  | cons x h ih =>
    intro hnd
    obtain ⟨k2, v2⟩ := x
    rw [List.map_cons, List.nodup_cons] at hnd
    by_cases hk : k2 = k
    · simp [alookup, hk]
    · simp only [alookup, if_neg hk]
      exact ih hnd.2
  | swap x y l =>
    intro hnd
    obtain ⟨kx, vx⟩ := x
    obtain ⟨ky, vy⟩ := y
    rw [List.map_cons, List.map_cons, List.nodup_cons] at hnd
    have hxy : ¬ky = kx := by
      intro hEq
      exact hnd.1 (by rw [hEq]; exact List.mem_cons_self _ _)
    by_cases h1 : kx = k
    · subst h1
      simp [alookup, hxy]
    · by_cases h2 : ky = k
      · subst h2
        simp [alookup, h1]
      · simp [alookup, h1, h2]
  | trans h1 h2 ih1 ih2 =>
    intro hnd
    have hnd2 := ((h1.map Prod.fst).nodup_iff).mp hnd
    rw [ih2 hnd2, ih1 hnd]

theorem rawProp_eq {f f2 : Feature} (h : FeatureEquiv f f2)
    (hnd : ((f.properties.getD []).map Prod.fst).Nodup) (k : String) :
    rawProp f2 k = rawProp f k := by
  obtain ⟨-, hp⟩ := h
  unfold rawProp
  cases hf : f.properties with
  | none =>
    cases hf2 : f2.properties with
    | none => rfl
    | some ps2 => rw [hf, hf2] at hp; exact hp.elim
  | some ps =>
    cases hf2 : f2.properties with
    | none => rw [hf, hf2] at hp; exact hp.elim
    | some ps2 =>
      rw [hf, hf2] at hp
      have hp2 : ps.Perm ps2 := hp
      rw [hf] at hnd
      simp only [Option.getD_some] at hnd
      exact alookup_perm hp2 hnd

theorem obsVals_eq {fs fs2 : List Feature} (h : List.Forall₂ FeatureEquiv fs fs2)
    (hnd : ∀ f ∈ fs, ((f.properties.getD []).map Prod.fst).Nodup) (k : String) :
    obsVals fs2 k = obsVals fs k := by
  induction h with
  | nil => rfl
  | cons hx hrest ih =>
    have h1 := rawProp_eq hx (hnd _ (List.mem_cons_self _ _)) k
    have ih2 := ih (fun g hg => hnd g (List.mem_cons_of_mem _ hg))
    simp only [obsVals, List.filterMap_cons] at ih2 ⊢
    rw [h1, ih2]

theorem nodupProps_of_equiv {fc fc2 : FeatureCollection}
    (h : List.Forall₂ FeatureEquiv fc.features fc2.features) (hnd : NodupProps fc) :
    NodupProps fc2 := by
  intro f2 hf2
  obtain ⟨f, hf, hr⟩ := forall2_mem_right h f2 hf2
  have := (keysOf_perm hr).nodup_iff.mp (hnd f hf)
  simpa [keysOf] using this

/-- C8: type inference is a total pure function into
{String, Integer, Float, Boolean, Null}: null maps to Null, booleans to
Boolean, every signed or unsigned integer-width numeric to Integer,
floating-point numerics to Float, text to String, nested maps and
sequences to String, and every other value to String; it never yields the
`unknown` sentinel and (being a Lean function) never errors. -/
theorem infer_type_total_mapping :
    inferPropertyType .null = .null ∧
    (∀ b, inferPropertyType (.bool b) = .bool) ∧
    (∀ n, inferPropertyType (.int n) = .int) ∧
    (∀ n, inferPropertyType (.int8 n) = .int) ∧
    (∀ n, inferPropertyType (.int16 n) = .int) ∧
    (∀ n, inferPropertyType (.int32 n) = .int) ∧
    (∀ n, inferPropertyType (.int64 n) = .int) ∧
    (∀ n, inferPropertyType (.uint n) = .int) ∧
    (∀ n, inferPropertyType (.uint8 n) = .int) ∧
    (∀ n, inferPropertyType (.uint16 n) = .int) ∧
    (∀ n, inferPropertyType (.uint32 n) = .int) ∧
    (∀ n, inferPropertyType (.uint64 n) = .int) ∧
    (∀ q, inferPropertyType (.float32 q) = .float) ∧
    (∀ q, inferPropertyType (.float64 q) = .float) ∧
    (∀ s, inferPropertyType (.str s) = .string) ∧
    (∀ es, inferPropertyType (.vmap es) = .string) ∧
    (∀ vs, inferPropertyType (.vseq vs) = .string) ∧
    inferPropertyType .other = .string ∧
    (∀ v, inferPropertyType v ≠ .unknown) := by
  refine ⟨rfl, fun _ => rfl, fun _ => rfl, fun _ => rfl, fun _ => rfl, fun _ => rfl,
    fun _ => rfl, fun _ => rfl, fun _ => rfl, fun _ => rfl, fun _ => rfl, fun _ => rfl,
    fun _ => rfl, fun _ => rfl, fun _ => rfl, fun _ => rfl, fun _ => rfl, rfl, fun v => ?_⟩
  cases v <;> simp [inferPropertyType]

/-- C7: a parsed collection with zero features makes `Generate` fail with
the input-kind `AppError` ("no features found in GeoJSON file", no cause)
regardless of what the write stage — which contains all property
analysis, metadata building and output writing — would do, so the error
is raised before any of those runs; for a non-empty collection this error is
never produced, whatever the write stage returns. -/
theorem generate_rejects_empty_collection (fc : FeatureCollection)
    (writeGeo : FeatureCollection → Except String Unit) :
    (fc.features = [] →
      Generate (.ok fc) writeGeo = .error ⟨"no features found in GeoJSON file", none⟩) ∧
    (fc.features ≠ [] →
      ∀ c, Generate (.ok fc) writeGeo ≠ .error ⟨"no features found in GeoJSON file", c⟩) := by
  constructor
  · intro h
    simp [Generate, h]
  · intro h c
    have hlen : fc.features.length ≠ 0 := by simpa using h
    simp only [Generate, if_neg hlen]
    cases writeGeo fc with
    | error e => simp
    | ok _ => simp

/-- C1: for every collection and every emitted descriptor, the final
inferred type is `string` when at least two distinct non-null semantic
types were observed for its key (in any order), `string` when only null
values were observed, and otherwise the unique non-null observed type,
independent of how nulls were interleaved.  The three cases are stated on
the null-free subsequence of the key's observation sequence. -/
theorem analyzer_final_type_characterization (fc : FeatureCollection)
    (hnd : NodupProps fc) (d : PropertyInfo) (hd : d ∈ analyzeProperties fc) :
    ((∃ t1 ∈ (obsTypes fc.features d.name).filter (fun u => u ≠ PropertyType.null),
      ∃ t2 ∈ (obsTypes fc.features d.name).filter (fun u => u ≠ PropertyType.null),
        t1 ≠ t2) → d.typ = PropertyType.string) ∧
    ((obsTypes fc.features d.name).filter (fun u => u ≠ PropertyType.null) = [] →
      d.typ = PropertyType.string) ∧
    (∀ t ∈ (obsTypes fc.features d.name).filter (fun u => u ≠ PropertyType.null),
      (∀ u ∈ (obsTypes fc.features d.name).filter (fun u => u ≠ PropertyType.null),
        u = t) → d.typ = t) := by
  rw [analyzeProperties_spec fc hnd, List.mem_map] at hd
  obtain ⟨name, hname, rfl⟩ := hd
  refine ⟨?_, ?_, ?_⟩
  · exact fun h => specType_of_conflict _ h
  · exact fun h => specType_of_nil _ h
  · exact fun t ht huniq => specType_of_unique _ t ht huniq

theorem analyzer_final_type_characterization_witness :
    (⟨"a", PropertyType.string, true⟩ : PropertyInfo) ∈ analyzeProperties fcConflict ∧
    (⟨"a", PropertyType.string, true⟩ : PropertyInfo).typ = PropertyType.string := by
  refine ⟨by decide, ?_⟩
  exact (analyzer_final_type_characterization fcConflict
      (by unfold NodupProps; decide)
      ⟨"a", PropertyType.string, true⟩ (by decide)).1
    ⟨PropertyType.int, by decide, PropertyType.string, by decide, by decide⟩

/-- C2: the Property Analyzer is deterministic — for the same collection
presented with any per-feature property-map iteration orders it returns
the same descriptor list — and the descriptor names are strictly
increasing in the byte-wise lexicographic order (`strLe`, the codepoint
order, identical to byte order on UTF-8). -/
theorem analyzer_deterministic_sorted (fc fc2 : FeatureCollection)
    (h : List.Forall₂ FeatureEquiv fc.features fc2.features) (hnd : NodupProps fc) :
    analyzeProperties fc2 = analyzeProperties fc ∧
    List.Pairwise (fun a b => strLe a b ∧ a ≠ b)
      ((analyzeProperties fc).map PropertyInfo.name) := by
  have hnd2 : NodupProps fc2 := nodupProps_of_equiv h hnd
  have hperm : ((fc2.features.foldl processFeature initState).names).Perm
      ((fc.features.foldl processFeature initState).names) := by
    rw [List.perm_ext_iff_of_nodup (namesAcc_nodup _) (namesAcc_nodup _)]
    intro a
    rw [namesAcc_mem, namesAcc_mem]
    exact ((allKeys_perm h).mem_iff).symm
  have hsortEq : List.insertionSort strLe
      ((fc2.features.foldl processFeature initState).names) =
      List.insertionSort strLe
      ((fc.features.foldl processFeature initState).names) :=
    List.eq_of_perm_of_sorted
      ((List.perm_insertionSort _ _).trans (hperm.trans (List.perm_insertionSort _ _).symm))
      (List.sorted_insertionSort _ _) (List.sorted_insertionSort _ _)
  have hobs : ∀ k, obsTypes fc2.features k = obsTypes fc.features k := by
    intro k
    unfold obsTypes
    rw [obsVals_eq h hnd k]
  constructor
  · rw [analyzeProperties_spec fc hnd, analyzeProperties_spec fc2 hnd2, hsortEq]
    apply List.map_congr_left
    intro name _
    rw [hobs name]
  · have hmapnames : (analyzeProperties fc).map PropertyInfo.name =
        List.insertionSort strLe
          ((fc.features.foldl processFeature initState).names) := by
      rw [analyzeProperties_spec fc hnd, List.map_map]
      have hcomp : (PropertyInfo.name ∘ fun name : String =>
          (⟨name, specType (obsTypes fc.features name), true⟩ : PropertyInfo)) =
          fun name : String => name := rfl
      rw [hcomp]
      exact List.map_id' _
    rw [hmapnames]
    have hs : List.Pairwise strLe
        (List.insertionSort strLe
          ((fc.features.foldl processFeature initState).names)) :=
      List.sorted_insertionSort _ _
    have hn : (List.insertionSort strLe
        ((fc.features.foldl processFeature initState).names)).Nodup :=
      ((List.perm_insertionSort _ _).nodup_iff).mpr (namesAcc_nodup _)
    exact hs.and hn

theorem analyzer_deterministic_sorted_witness :
    analyzeProperties fcOrderBA = analyzeProperties fcOrderAB ∧
    List.Pairwise (fun a b => strLe a b ∧ a ≠ b)
      ((analyzeProperties fcOrderAB).map PropertyInfo.name) := by
  exact analyzer_deterministic_sorted fcOrderAB fcOrderBA
    (List.Forall₂.cons ⟨rfl, List.Perm.swap _ _ _⟩ List.Forall₂.nil)
    (by unfold NodupProps; decide)

theorem enumFrom_foldl_set (g : PropertyInfo → Option PValue) :
    ∀ (l : List PropertyInfo) (n : Nat) (acc : List (Option PValue)),
      acc.length = n + l.length →
      (l.enumFrom n).foldl (fun acc ip => acc.set ip.1 (g ip.2)) acc =
        acc.take n ++ l.map g := by
  intro l
  induction l with
  | nil =>
    intro n acc hlen
    rw [List.length_nil] at hlen
    simp only [List.enumFrom_nil, List.foldl_nil, List.map_nil, List.append_nil]
    exact (List.take_of_length_le (by omega)).symm
  | cons x xs ih =>
    intro n acc hlen
    rw [List.enumFrom_cons, List.foldl_cons]
    have hlen2 : (acc.set n (g x)).length = (n + 1) + xs.length := by
      rw [List.length_set, hlen, List.length_cons]
      omega
    rw [ih (n + 1) _ hlen2]
    have hn : n < acc.length := by
      rw [hlen, List.length_cons]
      omega
    have htake : (acc.set n (g x)).take (n + 1) = acc.take n ++ [g x] := by
      rw [List.take_succ, List.set_take]
      have hlt : (acc.take n).length ≤ n := by
        rw [List.length_take]
        omega
      rw [List.set_eq_of_length_le hlt]
      rw [List.getElem?_set_self hn]
      rfl
    rw [htake, List.map_cons, List.append_assoc, List.singleton_append]

/-- The record's property slots are exactly the per-descriptor coercions,
in descriptor order (the imperative set-by-index loop, started from the
zero record, computes the map). -/
theorem buildRecord_values (encode : Geometry → Option (List Nat))
    (marshal : Value → Option String) (feature : Feature)
    (propertyInfos : List PropertyInfo) :
    (buildRecord encode marshal feature propertyInfos).values =
      propertyInfos.map (fun p => coerceValue marshal p.typ (rawProp feature p.name)) := by
  have h := enumFrom_foldl_set
    (fun p => coerceValue marshal p.typ (rawProp feature p.name))
    propertyInfos 0 (List.replicate propertyInfos.length none) (by simp)
  simpa [buildRecord, List.enum] using h

/-- C3: for every feature — geometry-less, property-less, or carrying
keys outside the descriptor set — and every descriptor list, the built
row has exactly 1 + len(descriptors) slots: the single geometry slot of
the record plus one property slot per Column Descriptor, in descriptor
order. -/
theorem row_width_invariant (encode : Geometry → Option (List Nat))
    (marshal : Value → Option String) (feature : Feature)
    (propertyInfos : List PropertyInfo) :
    (buildRecord encode marshal feature propertyInfos).values.length =
      propertyInfos.length ∧
    (buildRecord encode marshal feature propertyInfos).values =
      propertyInfos.map (fun p => coerceValue marshal p.typ (rawProp feature p.name)) := by
  refine ⟨?_, buildRecord_values encode marshal feature propertyInfos⟩
  rw [buildRecord_values encode marshal feature propertyInfos, List.length_map]

/-- C4 counterexample: the claim says a geometry-encoding failure is
fatal with no rows emitted; with an encoder failing on the only
feature's geometry the conversion still emits that feature's row, the
failure absorbed as an empty geometry byte slice and no error anywhere
(`buildRecord`/`convertRows` have no error outcome at all). -/
theorem geometry_encode_failure_not_fatal_cex :
    convertRows encodeNone marshalNone fcPointOnly [] = [⟨[], []⟩] := rfl

/-- C4 (amended): when the binary encoding of a feature's geometry
fails, `buildRecord` silently absorbs the failure — that feature's
geometry slot holds the empty byte sequence — and conversion continues,
emitting exactly one row per feature of the collection. -/
theorem geometry_encode_failure_absorbed (encode : Geometry → Option (List Nat))
    (marshal : Value → Option String) (fc : FeatureCollection) (f : Feature)
    (g : Geometry) (propertyInfos : List PropertyInfo)
    (hg : f.geometry = some g) (he : encode g = none) :
    (buildRecord encode marshal f propertyInfos).geometry = [] ∧
    (convertRows encode marshal fc propertyInfos).length = fc.features.length := by
  constructor
  · simp [buildRecord, hg, he]
  · simp [convertRows]

theorem geometry_encode_failure_absorbed_witness :
    (buildRecord encodeNone marshalNone ⟨some ⟨"Point"⟩, none⟩ []).geometry = [] ∧
    (convertRows encodeNone marshalNone fcPointOnly []).length =
      fcPointOnly.features.length :=
  geometry_encode_failure_absorbed encodeNone marshalNone fcPointOnly
    ⟨some ⟨"Point"⟩, none⟩ ⟨"Point"⟩ [] rfl rfl

/-- C5 counterexample: a feature with no geometry gets a present, empty
byte sequence in the geometry slot — the record's geometry field is not
optional — and the dynamic schema declares that column REQUIRED, so no
null/absent marker is stored. -/
theorem missing_geometry_empty_bytes_cex :
    (buildRecord encodeNone marshalNone featureNoGeom []).geometry = [] ∧
    buildDynamicType [] = some [geometryField] ∧
    geometryField.repetition = Repetition.required := by
  refine ⟨rfl, by decide, rfl⟩

/-- C5 (amended): for every feature carrying no geometry, the geometry
slot of its row holds the empty byte sequence — a present value in the
schema's first field, which is declared with repetition REQUIRED — not
an explicit null/absent marker. -/
theorem missing_geometry_empty_required_slot (encode : Geometry → Option (List Nat))
    (marshal : Value → Option String) (f : Feature)
    (propertyInfos : List PropertyInfo) (h : f.geometry = none) :
    (buildRecord encode marshal f propertyInfos).geometry = [] ∧
    ∀ fields, buildDynamicType propertyInfos = some fields →
      fields.head? = some geometryField ∧ geometryField.repetition = Repetition.required := by
  constructor
  · simp [buildRecord, h]
  · intro fields hf
    unfold buildDynamicType structOf at hf
    by_cases hok : ((geometryField :: propertyInfos.map propField).all
        (fun f => isExportedName f.fname) = true ∧
        ((geometryField :: propertyInfos.map propField).map StructField.fname).Nodup)
    · rw [if_pos hok] at hf
      injection hf with hf2
      rw [← hf2]
      exact ⟨rfl, rfl⟩
    · rw [if_neg hok] at hf
      exact absurd hf (by simp)

theorem missing_geometry_empty_required_slot_witness :
    (buildRecord encodeNone marshalNone featureNoGeom []).geometry = [] ∧
    (∀ fields, buildDynamicType [] = some fields →
      fields.head? = some geometryField ∧
        geometryField.repetition = Repetition.required) :=
  missing_geometry_empty_required_slot encodeNone marshalNone featureNoGeom [] rfl

/-- C6 counterexample: a String slot does not store textual input
"exactly as given" — the empty string input is stored as null, because
the code only sets the field when the computed string is non-empty. -/
theorem string_slot_empty_string_null_cex :
    coerceValue marshalNone PropertyType.string (some (Value.str "")) = none := rfl

/-- C6 (amended): row coercion never aborts (it is a total function) and
each slot depends only on its own descriptor, with these rules: an
absent property map, absent key or null value stores null; an Integer
slot accepts int, int32 and int64 directly and float32/float64 by
truncation toward zero, storing null for int8, int16, the unsigned
kinds and every non-numeric; a Float slot widens exactly int, int32,
int64, float32 and float64 and stores null otherwise; a Boolean slot
accepts only booleans; a String slot stores non-empty text exactly as
given, stores empty text as null, and serializes structured input via
the external JSON marshaller, storing null when that fails or yields
the empty string. -/
theorem coercion_rules_characterization (marshal : Value → Option String) :
    (∀ t, coerceValue marshal t none = none) ∧
    (∀ t, coerceValue marshal t (some Value.null) = none) ∧
    (∀ n, coerceValue marshal .int (some (.int n)) = some (.int n)) ∧
    (∀ n, coerceValue marshal .int (some (.int32 n)) = some (.int n)) ∧
    (∀ n, coerceValue marshal .int (some (.int64 n)) = some (.int n)) ∧
    (∀ q, coerceValue marshal .int (some (.float32 q)) = some (.int (truncToInt q))) ∧
    (∀ q, coerceValue marshal .int (some (.float64 q)) = some (.int (truncToInt q))) ∧
    (∀ n, coerceValue marshal .int (some (.int8 n)) = none) ∧
    (∀ n, coerceValue marshal .int (some (.int16 n)) = none) ∧
    (∀ n, coerceValue marshal .int (some (.uint n)) = none) ∧
    (∀ n, coerceValue marshal .int (some (.uint64 n)) = none) ∧
    (∀ b, coerceValue marshal .int (some (.bool b)) = none) ∧
    (∀ s, coerceValue marshal .int (some (.str s)) = none) ∧
    (∀ n, coerceValue marshal .float (some (.int n)) = some (.float (n : ℚ))) ∧
    (∀ n, coerceValue marshal .float (some (.int32 n)) = some (.float (n : ℚ))) ∧
    (∀ n, coerceValue marshal .float (some (.int64 n)) = some (.float (n : ℚ))) ∧
    (∀ q, coerceValue marshal .float (some (.float32 q)) = some (.float q)) ∧
    (∀ q, coerceValue marshal .float (some (.float64 q)) = some (.float q)) ∧
    (∀ n, coerceValue marshal .float (some (.int8 n)) = none) ∧
    (∀ s, coerceValue marshal .float (some (.str s)) = none) ∧
    (∀ b, coerceValue marshal .float (some (.bool b)) = none) ∧
    (∀ b, coerceValue marshal .bool (some (.bool b)) = some (.bool b)) ∧
    (∀ n, coerceValue marshal .bool (some (.int n)) = none) ∧
    (∀ s, coerceValue marshal .bool (some (.str s)) = none) ∧
    (∀ s, coerceValue marshal .string (some (.str s)) =
      if s = "" then none else some (.str s)) ∧
    (∀ es, coerceValue marshal .string (some (.vmap es)) =
      (match marshal (.vmap es) with
        | some j => if j = "" then none else some (.str j)
        | none => none)) ∧
    (∀ vs, coerceValue marshal .string (some (.vseq vs)) =
      (match marshal (.vseq vs) with
        | some j => if j = "" then none else some (.str j)
        | none => none)) ∧
    (∀ b, coerceValue marshal .string (some (.bool b)) =
      (match marshal (.bool b) with
        | some j => if j = "" then none else some (.str j)
        | none => none)) ∧
    (∀ encode feature propertyInfos,
      (buildRecord encode marshal feature propertyInfos).values =
        propertyInfos.map (fun p => coerceValue marshal p.typ (rawProp feature p.name))) := by
  refine ⟨fun t => rfl, fun t => rfl, fun n => rfl, fun n => rfl, fun n => rfl,
    fun q => rfl, fun q => rfl, fun n => rfl, fun n => rfl, fun n => rfl, fun n => rfl,
    fun b => rfl, fun s => rfl, fun n => rfl, fun n => rfl, fun n => rfl,
    fun q => rfl, fun q => rfl, fun n => rfl, fun s => rfl, fun b => rfl,
    fun b => rfl, fun n => rfl, fun s => rfl, fun s => rfl, ?_, ?_, ?_,
    fun encode feature propertyInfos =>
      buildRecord_values encode marshal feature propertyInfos⟩
  · intro es
    cases hm : marshal (.vmap es) <;> simp [coerceValue, hm]
  · intro vs
    cases hm : marshal (.vseq vs) <;> simp [coerceValue, hm]
  · intro b
    cases hm : marshal (.bool b) <;> simp [coerceValue, hm]

theorem testBit_mask_lt (i : Nat) (h : i < 32) :
    Nat.testBit 4294967263 i = !(decide (i = 5)) := by
  interval_cases i <;> decide

theorem testBit_high (x : Nat) (hx : x < 4294967296) (i : Nat) (h : 32 ≤ i) :
    Nat.testBit x i = false := by
  apply Nat.testBit_lt_two_pow
  calc x < 4294967296 := hx
    _ = 2 ^ 32 := by norm_num
    _ ≤ 2 ^ i := Nat.pow_le_pow_right (by norm_num) h

/-- The first-rune mask `r & ^0x20` clears exactly bit 5 of a 32-bit
rune value. -/
theorem maskUpper_spec (r : Nat) (h : r < 4294967296) :
    maskUpper r = if r.testBit 5 then r - 32 else r := by
  by_cases h5 : r.testBit 5 = true
  · have h5d : r / 32 % 2 = 1 := by
      rw [Nat.testBit_to_div_mod] at h5
      norm_num at h5
      exact h5
    rw [if_pos h5]
    apply Nat.eq_of_testBit_eq
    intro i
    rcases Nat.lt_or_ge i 32 with hi | hi
    · rw [maskUpper, Nat.testBit_land]
      interval_cases i <;>
        simp only [Nat.testBit_to_div_mod] <;> simp <;> omega
    · rw [maskUpper, Nat.testBit_land, testBit_high 4294967263 (by norm_num) i hi,
        Bool.and_false, testBit_high (r - 32) (by omega) i hi]
  · have h5d : r / 32 % 2 = 0 := by
      rw [Nat.testBit_to_div_mod] at h5
      norm_num at h5
      exact h5
    rw [if_neg h5]
    apply Nat.eq_of_testBit_eq
    intro i
    rcases Nat.lt_or_ge i 32 with hi | hi
    · rw [maskUpper, Nat.testBit_land]
      interval_cases i <;>
        simp only [Nat.testBit_to_div_mod] <;> simp <;> omega
    · rw [maskUpper, Nat.testBit_land, testBit_high 4294967263 (by norm_num) i hi,
        Bool.and_false, testBit_high r (by omega) i hi]

/-- The source's mangling equals the claim's description of it, for every
name of valid codepoints: masking bit 5 of the first rune agrees with
"uppercase a lowercase first letter" once the invalid-character filter
is applied. -/
theorem exportFieldName_eq_spec (name : List Nat) (h : ∀ r ∈ name, r < 1114112) :
    exportFieldName name = exportFieldNameSpec name := by
  cases name with
  | nil => rfl
  | cons r0 rest =>
    have hr0 : r0 < 1114112 := h r0 (List.mem_cons_self _ _)
    show ((maskUpper r0 :: rest).enum).map
        (fun ir => if validRune ir.1 ir.2 then ir.2 else 95) =
      (((if 97 ≤ r0 ∧ r0 ≤ 122 then r0 - 32 else r0) :: rest).enum).map
        (fun ir => if validRune ir.1 ir.2 then ir.2 else 95)
    rw [List.enum_cons, List.enum_cons, List.map_cons, List.map_cons]
    congr 1
    have hmask := maskUpper_spec r0 (by omega)
    rw [hmask]
    by_cases h5 : r0.testBit 5 = true
    · have h5d : r0 / 32 % 2 = 1 := by
        rw [Nat.testBit_to_div_mod] at h5
        norm_num at h5
        exact h5
      rw [if_pos h5]
      simp only [validRune, decide_eq_true_eq]
      split_ifs <;> omega
    · have h5d : r0 / 32 % 2 = 0 := by
        rw [Nat.testBit_to_div_mod] at h5
        norm_num at h5
        exact h5
      rw [if_neg h5]
      simp only [validRune, decide_eq_true_eq]
      split_ifs <;> omega

/-- C10 counterexample: the descriptor list with the single key
"geometry" satisfies the claim's precondition — the mangled names of
its distinct property keys are (trivially) pairwise distinct — yet
schema construction fails instead of yielding a 2-field struct, because
the key mangles to "Geometry", the name of the fixed geometry field. -/
theorem mangled_name_collision_geometry_cex :
    ([infoGeometry].map (fun p => exportFieldName (strRunes p.name))).Nodup ∧
    buildDynamicType [infoGeometry] = none := by
  refine ⟨by decide, by decide⟩

/-- C10 (amended): `exportFieldName` performs exactly the claimed
mangling (empty name to "Field", lowercase first letter uppercased,
every character outside A-Z, a-z, 0-9, underscore and any leading digit
replaced by an underscore); schema construction yields exactly
1 + len(descriptors) fields under the precondition that the mangled
field names — the fixed "Geometry" field included — are pairwise
distinct AND all exported (first character an uppercase letter); two
keys with one mangled name, such as "name" and "Name", and likewise a
key whose mangled name is unexported, such as "2020_pop" (mangled to
the underscore-leading "_020_pop"), make `reflect.StructOf` panic
instead of producing a schema. -/
theorem dynamic_schema_mangling_and_totality (name : List Nat)
    (propertyInfos : List PropertyInfo)
    (hval : ∀ r ∈ name, r < 1114112)
    (hexp : (geometryField :: propertyInfos.map propField).all
      (fun f => isExportedName f.fname) = true)
    (hnd : ((geometryField :: propertyInfos.map propField).map StructField.fname).Nodup) :
    exportFieldName name = exportFieldNameSpec name ∧
    buildDynamicType propertyInfos = some (geometryField :: propertyInfos.map propField) ∧
    (geometryField :: propertyInfos.map propField).length = 1 + propertyInfos.length ∧
    buildDynamicType [infoLowerName, infoUpperName] = none ∧
    buildDynamicType [infoDigit] = none := by
  refine ⟨exportFieldName_eq_spec name hval, ?_, ?_, by decide, by decide⟩
  · unfold buildDynamicType structOf
    rw [if_pos ⟨hexp, hnd⟩]
  · rw [List.length_cons, List.length_map]
    omega

theorem dynamic_schema_mangling_and_totality_witness :
    exportFieldName (strRunes "name") = exportFieldNameSpec (strRunes "name") ∧
    buildDynamicType [infoLowerName] =
      some (geometryField :: [infoLowerName].map propField) ∧
    (geometryField :: [infoLowerName].map propField).length =
      1 + ([infoLowerName] : List PropertyInfo).length ∧
    buildDynamicType [infoLowerName, infoUpperName] = none ∧
    buildDynamicType [infoDigit] = none :=
  dynamic_schema_mangling_and_totality (strRunes "name") [infoLowerName]
    (by decide) (by decide) (by decide)

theorem mem_geomTypesAcc_foldl (fs : List Feature) :
    ∀ (acc : List String) (x : String),
      (x ∈ fs.foldl (fun acc f =>
        match f.geometry with
        | some g => insertIfAbsent acc g.typ
        | none => acc) acc ↔
      x ∈ acc ∨ ∃ f ∈ fs, ∃ g, f.geometry = some g ∧ g.typ = x) := by
  induction fs with
  | nil => simp
  | cons f fs ih =>
    intro acc x
    rw [List.foldl_cons]
    cases hg : f.geometry with
    | none =>
      rw [ih]
      constructor
      · rintro (hx | ⟨f2, hf2, g2, hg2, ht⟩)
        · exact Or.inl hx
        · exact Or.inr ⟨f2, List.mem_cons_of_mem f hf2, g2, hg2, ht⟩
      · rintro (hx | ⟨f2, hf2, g2, hg2, ht⟩)
        · exact Or.inl hx
        · rcases List.mem_cons.mp hf2 with rfl | hf3
          · rw [hg] at hg2; cases hg2
          · exact Or.inr ⟨f2, hf3, g2, hg2, ht⟩
    | some g =>
      rw [ih]
      constructor
      · rintro (hx | ⟨f2, hf2, g2, hg2, ht⟩)
        · rcases mem_insertIfAbsent.mp hx with hx2 | rfl
          · exact Or.inl hx2
          · exact Or.inr ⟨f, List.mem_cons_self f fs, g, hg, rfl⟩
        · exact Or.inr ⟨f2, List.mem_cons_of_mem f hf2, g2, hg2, ht⟩
      · rintro (hx | ⟨f2, hf2, g2, hg2, ht⟩)
        · exact Or.inl (mem_insertIfAbsent.mpr (Or.inl hx))
        · rcases List.mem_cons.mp hf2 with rfl | hf3
          · rw [hg] at hg2
            injection hg2 with hg3
            subst hg3
            exact Or.inl (mem_insertIfAbsent.mpr (Or.inr ht.symm))
          · exact Or.inr ⟨f2, hf3, g2, hg2, ht⟩

theorem nodup_geomTypesAcc_foldl (fs : List Feature) :
    ∀ acc : List String, acc.Nodup →
      (fs.foldl (fun acc f =>
        match f.geometry with
        | some g => insertIfAbsent acc g.typ
        | none => acc) acc).Nodup := by
  induction fs with
  | nil => exact fun acc h => h
  | cons f fs ih =>
    intro acc h
    rw [List.foldl_cons]
    cases hg : f.geometry with
    | none => exact ih acc h
    | some g => exact ih _ (nodup_insertIfAbsent h)

theorem mem_geomTypesAcc (fc : FeatureCollection) (x : String) :
    x ∈ geomTypesAcc fc ↔
      ∃ f ∈ fc.features, ∃ g, f.geometry = some g ∧ g.typ = x := by
  unfold geomTypesAcc
  rw [mem_geomTypesAcc_foldl]
  simp

theorem geomTypesAcc_nodup (fc : FeatureCollection) : (geomTypesAcc fc).Nodup :=
  nodup_geomTypesAcc_foldl fc.features [] List.nodup_nil

/-- C9: for every collection the metadata carries the fixed version
string "1.1.0", the fixed primary column name "geometry", a single
geometry column entry with the fixed encoding name "WKB" and an
omitted CRS, whose geometry_types list is exactly the set of distinct
observed geometry type tags sorted lexicographically (strictly, being
duplicate-free); a collection with a Point and a Polygon yields exactly
["Point", "Polygon"], and zero geometries yield the empty list, not an
error. -/
theorem geoparquet_metadata_shape (fc : FeatureCollection)
    (propertyInfos : List PropertyInfo) :
    (createGeoParquetMetadata fc propertyInfos).Version = "1.1.0" ∧
    (createGeoParquetMetadata fc propertyInfos).PrimaryColumn = "geometry" ∧
    (∃ col, (createGeoParquetMetadata fc propertyInfos).Columns = [("geometry", col)] ∧
      col.Encoding = "WKB" ∧ col.CRS = none ∧
      List.Pairwise (fun a b => strLe a b ∧ a ≠ b) col.GeometryTypes ∧
      (∀ t, t ∈ col.GeometryTypes ↔
        ∃ f ∈ fc.features, ∃ g, f.geometry = some g ∧ g.typ = t) ∧
      ((∀ f ∈ fc.features, f.geometry = none) → col.GeometryTypes = [])) ∧
    ((createGeoParquetMetadata fcPointPolygon []).Columns.map
      (fun c => c.2.GeometryTypes)) = [["Point", "Polygon"]] := by
  refine ⟨rfl, rfl, ?_, by decide⟩
  refine ⟨_, rfl, rfl, rfl, ?_, ?_, ?_⟩
  · have hs : List.Pairwise strLe
        (List.insertionSort strLe (geomTypesAcc fc)) :=
      List.sorted_insertionSort _ _
    have hn : (List.insertionSort strLe (geomTypesAcc fc)).Nodup :=
      ((List.perm_insertionSort _ _).nodup_iff).mpr (geomTypesAcc_nodup fc)
    exact hs.and hn
  · intro t
    rw [show ∀ l : List String, t ∈ List.insertionSort strLe l ↔ t ∈ l
        from fun l => List.mem_insertionSort _]
    exact mem_geomTypesAcc fc t
  · intro hnone
    have : ∀ t, ¬t ∈ List.insertionSort strLe (geomTypesAcc fc) := by
      intro t ht
      rw [List.mem_insertionSort] at ht
      obtain ⟨f, hf, g, hg, -⟩ := (mem_geomTypesAcc fc t).mp ht
      rw [hnone f hf] at hg
      cases hg
    exact List.eq_nil_iff_forall_not_mem.mpr this

end GoGeo
